import Mathlib

/-!
Shallow embedding of `src/NetworkRequestReponseEncrypterDecrypter.py`.

Modelling conventions:
* Python `bytes` values are `List Nat` with every entry below 256.
* Python text is `String` where the program treats it opaquely (record
  fields, key and IV material) and `List Char` where the program edits it
  character by character (the base64 envelope).
* A JSON object of string fields is `Record := List (String × String)`.
* The AES block primitive, the zlib raw-DEFLATE codec and the JSON codec
  are calls into third-party libraries, not code of this repository; they
  enter the embedding as parameters (a `BlockCipher` family keyed by the
  key bytes, `deflate`/`inflate`, `ser`/`parse`) constrained only by the
  round-trip facts the program relies on.  Everything the repository
  itself writes — PKCS#7-style padding, base64 re-padding, the padding
  check and strip, the CBC composition of the block primitive, and the
  driver's checks — is embedded concretely below.
-/

/-- A JSON object whose values are strings, as built by `perform_request`. -/
abbrev Record : Type := List (String × String)

/-- UTF-8 byte sequence of one Unicode code point (models Python `str.encode`). -/
def utf8Char (c : Nat) : List Nat :=
  if c < 128 then [c]
  else if c < 2048 then [192 + c / 64, 128 + c % 64]
  else if c < 65536 then [224 + c / 4096, 128 + c / 64 % 64, 128 + c % 64]
  else [240 + c / 262144, 128 + c / 4096 % 64, 128 + c / 64 % 64, 128 + c % 64]

/-- UTF-8 encoding of a string: models Python `s.encode("utf-8")`. -/
def strBytes (s : String) : List Nat :=
  (s.data.map (fun c => utf8Char c.toNat)).flatten

theorem char_toNat_lt (c : Char) : c.toNat < 1114112 := by
  rcases c.valid with h | h
  · exact lt_trans h (by norm_num)
  · exact h.2

theorem utf8Char_lt (c : Nat) (hc : c < 1114112) : ∀ b ∈ utf8Char c, b < 256 := by
  intro b hb
  unfold utf8Char at hb
  split at hb
  · simp only [List.mem_singleton] at hb; omega
  · split at hb
    · simp only [List.mem_cons, List.not_mem_nil, or_false] at hb
      rcases hb with h | h <;> omega
    · split at hb
      · simp only [List.mem_cons, List.not_mem_nil, or_false] at hb
        rcases hb with h | h | h <;> omega
      · simp only [List.mem_cons, List.not_mem_nil, or_false] at hb
        rcases hb with h | h | h | h <;> omega

theorem strBytes_lt (s : String) : ∀ b ∈ strBytes s, b < 256 := by
  intro b hb
  simp only [strBytes, List.mem_flatten, List.mem_map] at hb
  obtain ⟨l, ⟨c, _, rfl⟩, hbl⟩ := hb
  exact utf8Char_lt c.toNat (char_toNat_lt c) b hbl

/-- The standard base64 alphabet. -/
def b64Chars : List Char :=
  String.data "ABCDEFGHIJKLMNOPQRSTUVWXYZabcdefghijklmnopqrstuvwxyz0123456789+/"

/-- Character for a 6-bit group. -/
def b64Table (i : Nat) : Char := b64Chars.getD i 'A'

/-- Index of a base64 alphabet character, `none` outside the alphabet. -/
def b64Val (c : Char) : Option Nat :=
  if c ∈ b64Chars then some (b64Chars.indexOf c) else none

theorem b64Val_b64Table : ∀ i, i < 64 → b64Val (b64Table i) = some i := by decide

theorem b64Table_ne_eq : ∀ i, i < 64 → b64Table i ≠ '=' := by decide

theorem b64Table_mem (i : Nat) : b64Table i ∈ b64Chars := by
  by_cases h : i < 64
  · have h64 : ∀ j, j < 64 → b64Table j ∈ b64Chars := by decide
    exact h64 i h
  · have hd : b64Table i = 'A' := by
      unfold b64Table
      apply List.getD_eq_default
      have hlen : b64Chars.length = 64 := by decide
      omega
    rw [hd]; decide

/-- Standard base64 encoding of a byte list: models Python `base64.b64encode`
followed by `.decode("utf-8")`. -/
def b64encode : List Nat → List Char
  | [] => []
  | [b0] => [b64Table (b0 / 4), b64Table (b0 % 4 * 16), '=', '=']
  | [b0, b1] => [b64Table (b0 / 4), b64Table (b0 % 4 * 16 + b1 / 16),
      b64Table (b1 % 16 * 4), '=']
  | b0 :: b1 :: b2 :: rest =>
      b64Table (b0 / 4) :: b64Table (b0 % 4 * 16 + b1 / 16) ::
      b64Table (b1 % 16 * 4 + b2 / 64) :: b64Table (b2 % 64) :: b64encode rest

/-- Standard base64 decoding on alphabet input: models Python
`base64.b64decode` on the strings this program feeds it (characters drawn
from the alphabet, `=` only as trailing padding). -/
def b64decodeChars : List Char → Option (List Nat)
  | [] => some []
  | c0 :: c1 :: c2 :: c3 :: rest =>
    match b64Val c0, b64Val c1 with
    | some v0, some v1 =>
      if c2 = '=' ∧ c3 = '=' ∧ rest = [] then some [v0 * 4 + v1 / 16]
      else
        match b64Val c2 with
        | some v2 =>
          if c3 = '=' ∧ rest = [] then
            some [v0 * 4 + v1 / 16, v1 % 16 * 16 + v2 / 4]
          else
            match b64Val c3, b64decodeChars rest with
            | some v3, some tail =>
              some ((v0 * 4 + v1 / 16) :: (v1 % 16 * 16 + v2 / 4) ::
                (v2 % 4 * 64 + v3) :: tail)
            | _, _ => none
        | none => none
    | _, _ => none
  | _ => none

theorem b64encode_length_mod (bs : List Nat) : (b64encode bs).length % 4 = 0 := by
  induction bs using b64encode.induct with
  | case1 => simp [b64encode]
  | case2 b0 => simp [b64encode]
  | case3 b0 b1 => simp [b64encode]
  | case4 b0 b1 b2 rest ih =>
    simp only [b64encode, List.length_cons]
    omega

theorem b64decode_b64encode (bs : List Nat) (h : ∀ b ∈ bs, b < 256) :
    b64decodeChars (b64encode bs) = some bs := by
  induction bs using b64encode.induct with
  | case1 => rfl
  | case2 b0 =>
    have hb0 : b0 < 256 := h b0 (by simp)
    have h1 : b0 / 4 < 64 := by omega
    have h2 : b0 % 4 * 16 < 64 := by omega
    simp only [b64encode, b64decodeChars, b64Val_b64Table _ h1, b64Val_b64Table _ h2]
    rw [if_pos (by simp)]
    have : b0 / 4 * 4 + b0 % 4 * 16 / 16 = b0 := by omega
    rw [this]
  | case3 b0 b1 =>
    have hb0 : b0 < 256 := h b0 (by simp)
    have hb1 : b1 < 256 := h b1 (by simp)
    have h1 : b0 / 4 < 64 := by omega
    have h2 : b0 % 4 * 16 + b1 / 16 < 64 := by omega
    have h3 : b1 % 16 * 4 < 64 := by omega
    simp only [b64encode, b64decodeChars, b64Val_b64Table _ h1, b64Val_b64Table _ h2,
      b64Val_b64Table _ h3]
    rw [if_neg (by
      intro hcon
      exact b64Table_ne_eq _ h3 hcon.1)]
    rw [if_pos (by simp)]
    have e0 : b0 / 4 * 4 + (b0 % 4 * 16 + b1 / 16) / 16 = b0 := by omega
    have e1 : (b0 % 4 * 16 + b1 / 16) % 16 * 16 + b1 % 16 * 4 / 4 = b1 := by omega
    rw [e0, e1]
  | case4 b0 b1 b2 rest ih =>
    have hb0 : b0 < 256 := h b0 (by simp)
    have hb1 : b1 < 256 := h b1 (by simp)
    have hb2 : b2 < 256 := h b2 (by simp)
    have hrest : ∀ b ∈ rest, b < 256 := fun b hb => h b (by simp [hb])
    have h1 : b0 / 4 < 64 := by omega
    have h2 : b0 % 4 * 16 + b1 / 16 < 64 := by omega
    have h3 : b1 % 16 * 4 + b2 / 64 < 64 := by omega
    have h4 : b2 % 64 < 64 := by omega
    simp only [b64encode, b64decodeChars, b64Val_b64Table _ h1, b64Val_b64Table _ h2,
      b64Val_b64Table _ h3, b64Val_b64Table _ h4, ih hrest]
    rw [if_neg (by
      intro hcon
      exact b64Table_ne_eq _ h3 hcon.1)]
    rw [if_neg (by
      intro hcon
      exact b64Table_ne_eq _ h4 hcon.1)]
    have e0 : b0 / 4 * 4 + (b0 % 4 * 16 + b1 / 16) / 16 = b0 := by omega
    have e1 : (b0 % 4 * 16 + b1 / 16) % 16 * 16 + (b1 % 16 * 4 + b2 / 64) / 4 = b1 := by
      omega
    have e2 : (b1 % 16 * 4 + b2 / 64) % 4 * 64 + b2 % 64 = b2 := by omega
    rw [e0, e1, e2]

theorem b64encode_split (bs : List Nat) (h : ∀ b ∈ bs, b < 256) :
    ∃ body k, b64encode bs = body ++ List.replicate k '=' ∧ k ≤ 2 ∧
      ∀ c ∈ body, c ≠ '=' := by
  induction bs using b64encode.induct with
  | case1 => exact ⟨[], 0, rfl, by omega, by simp⟩
  | case2 b0 =>
    have hb0 : b0 < 256 := h b0 (by simp)
    refine ⟨[b64Table (b0 / 4), b64Table (b0 % 4 * 16)], 2, rfl, by omega, ?_⟩
    intro c hc
    simp only [List.mem_cons, List.not_mem_nil, or_false] at hc
    rcases hc with rfl | rfl
    · exact b64Table_ne_eq _ (by omega)
    · exact b64Table_ne_eq _ (by omega)
  | case3 b0 b1 =>
    have hb0 : b0 < 256 := h b0 (by simp)
    have hb1 : b1 < 256 := h b1 (by simp)
    refine ⟨[b64Table (b0 / 4), b64Table (b0 % 4 * 16 + b1 / 16),
      b64Table (b1 % 16 * 4)], 1, rfl, by omega, ?_⟩
    intro c hc
    simp only [List.mem_cons, List.not_mem_nil, or_false] at hc
    rcases hc with rfl | rfl | rfl
    · exact b64Table_ne_eq _ (by omega)
    · exact b64Table_ne_eq _ (by omega)
    · exact b64Table_ne_eq _ (by omega)
  | case4 b0 b1 b2 rest ih =>
    have hb0 : b0 < 256 := h b0 (by simp)
    have hb1 : b1 < 256 := h b1 (by simp)
    have hb2 : b2 < 256 := h b2 (by simp)
    have hrest : ∀ b ∈ rest, b < 256 := fun b hb => h b (by simp [hb])
    obtain ⟨body, k, heq, hk, hne⟩ := ih hrest
    refine ⟨b64Table (b0 / 4) :: b64Table (b0 % 4 * 16 + b1 / 16) ::
      b64Table (b1 % 16 * 4 + b2 / 64) :: b64Table (b2 % 64) :: body, k, ?_, hk, ?_⟩
    · simp [b64encode, heq]
    · intro c hc
      simp only [List.mem_cons] at hc
      rcases hc with rfl | rfl | rfl | rfl | hc
      · exact b64Table_ne_eq _ (by omega)
      · exact b64Table_ne_eq _ (by omega)
      · exact b64Table_ne_eq _ (by omega)
      · exact b64Table_ne_eq _ (by omega)
      · exact hne c hc

/-- Removal of all trailing base64 padding characters from an envelope. -/
def stripTrailingEq (l : List Char) : List Char :=
  (l.reverse.dropWhile (fun c => c == '=')).reverse

theorem stripTrailingEq_spec (body : List Char) (k : Nat)
    (h : ∀ c ∈ body, c ≠ '=') :
    stripTrailingEq (body ++ List.replicate k '=') = body := by
  unfold stripTrailingEq
  rw [List.reverse_append, List.reverse_replicate]
  have hdropRep : ∀ n, List.dropWhile (fun c => c == '=')
      (List.replicate n '=' ++ body.reverse) = List.dropWhile (fun c => c == '=')
      body.reverse := by
    intro n
    induction n with
    | zero => simp
    | succ n ihn => simp [List.replicate_succ, List.dropWhile_cons, ihn]
  rw [hdropRep]
  have hbody : List.dropWhile (fun c => c == '=') body.reverse = body.reverse := by
    cases hrev : body.reverse with
    | nil => simp
    | cons c t =>
      have hc : c ∈ body := by
        have : c ∈ body.reverse := by rw [hrev]; simp
        simpa using this
      rw [List.dropWhile_cons]
      simp [h c hc]
  rw [hbody, List.reverse_reverse]

/-- Byte-wise XOR, as CBC chaining applies it. -/
def xorBytes (a b : List Nat) : List Nat := List.zipWith Nat.xor a b

theorem xorBytes_length (a b : List Nat) :
    (xorBytes a b).length = min a.length b.length := by
  simp [xorBytes]

theorem xorBytes_lt (a b : List Nat) (ha : ∀ x ∈ a, x < 256) (hb : ∀ x ∈ b, x < 256) :
    ∀ x ∈ xorBytes a b, x < 256 := by
  induction a generalizing b with
  | nil => simp [xorBytes]
  | cons x t ih =>
    cases b with
    | nil => simp [xorBytes]
    | cons y u =>
      intro z hz
      simp only [xorBytes, List.zipWith_cons_cons, List.mem_cons] at hz
      rcases hz with rfl | hz
      · have hx : x < 256 := ha x (by simp)
        have hy : y < 256 := hb y (by simp)
        have h256 : (256 : Nat) = 2 ^ 8 := by norm_num
        show x ^^^ y < 256
        rw [h256]
        exact Nat.xor_lt_two_pow (h256 ▸ hx) (h256 ▸ hy)
      · exact ih u (fun w hw => ha w (by simp [hw])) (fun w hw => hb w (by simp [hw])) z hz

theorem xorBytes_xorBytes (a b : List Nat) (h : a.length = b.length) :
    xorBytes a (xorBytes a b) = b := by
  induction a generalizing b with
  | nil =>
    cases b with
    | nil => rfl
    | cons y t => simp at h
  | cons x t ih =>
    cases b with
    | nil => simp at h
    | cons y u =>
      simp only [xorBytes, List.zipWith_cons_cons, List.cons.injEq]
      constructor
      · show x ^^^ (x ^^^ y) = y
        rw [← Nat.xor_assoc, Nat.xor_self, Nat.zero_xor]
      · exact ih u (by simpa using h)

/-- Interface of the keyed AES block primitive supplied by pycryptodome:
a length-preserving permutation of 16-byte blocks.  The Python program
never implements this primitive itself; CBC chaining over it is what
`AES.new(..., AES.MODE_CBC, ...)` adds and is modelled concretely below. -/
structure BlockCipher where
  enc : List Nat → List Nat
  dec : List Nat → List Nat
  enc_length : ∀ b, b.length = 16 → (enc b).length = 16
  enc_lt : ∀ b, b.length = 16 → (∀ x ∈ b, x < 256) → ∀ x ∈ enc b, x < 256
  dec_enc : ∀ b, b.length = 16 → (∀ x ∈ b, x < 256) → dec (enc b) = b

/-- Fuel-driven CBC encryption worker; structural recursion so that
concrete instances evaluate inside the kernel. -/
def cbcEncAux (E : List Nat → List Nat) : Nat → List Nat → List Nat → List Nat
  | 0, _, _ => []
  | fuel + 1, iv, pt =>
    if pt = [] then []
    else E (xorBytes iv (pt.take 16)) ++
      cbcEncAux E fuel (E (xorBytes iv (pt.take 16))) (pt.drop 16)

/-- CBC-mode encryption of a block-aligned plaintext. -/
def cbcEnc (E : List Nat → List Nat) (iv pt : List Nat) : List Nat :=
  cbcEncAux E pt.length iv pt

/-- Fuel-driven CBC decryption worker. -/
def cbcDecAux (D : List Nat → List Nat) : Nat → List Nat → List Nat → List Nat
  | 0, _, _ => []
  | fuel + 1, iv, ct =>
    if ct = [] then []
    else xorBytes iv (D (ct.take 16)) ++ cbcDecAux D fuel (ct.take 16) (ct.drop 16)

/-- CBC-mode decryption of a block-aligned ciphertext. -/
def cbcDec (D : List Nat → List Nat) (iv ct : List Nat) : List Nat :=
  cbcDecAux D ct.length iv ct

theorem cbcEncAux_congr (E : List Nat → List Nat) :
    ∀ f1 f2 iv pt, pt.length ≤ f1 → pt.length ≤ f2 →
      cbcEncAux E f1 iv pt = cbcEncAux E f2 iv pt := by
  intro f1
  induction f1 with
  | zero =>
    intro f2 iv pt h1 _
    have : pt = [] := List.length_eq_zero.mp (by omega)
    subst this
    cases f2 <;> simp [cbcEncAux]
  | succ f ih =>
    intro f2 iv pt h1 h2
    by_cases hpt : pt = []
    · subst hpt; cases f2 <;> simp [cbcEncAux]
    · have hlen : 1 ≤ pt.length := List.length_pos.mpr hpt
      cases f2 with
      | zero => omega
      | succ f2' =>
        simp only [cbcEncAux, if_neg hpt]
        congr 1
        exact ih f2' _ _ (by simp only [List.length_drop]; omega)
          (by simp only [List.length_drop]; omega)

theorem cbcEnc_eq (E : List Nat → List Nat) (iv pt : List Nat) :
    cbcEnc E iv pt =
      if pt = [] then []
      else E (xorBytes iv (pt.take 16)) ++
        cbcEnc E (E (xorBytes iv (pt.take 16))) (pt.drop 16) := by
  unfold cbcEnc
  by_cases hpt : pt = []
  · subst hpt; simp [cbcEncAux]
  · have hlen : 1 ≤ pt.length := List.length_pos.mpr hpt
    obtain ⟨n, hn⟩ : ∃ n, pt.length = n + 1 := ⟨pt.length - 1, by omega⟩
    rw [hn, if_neg hpt]
    simp only [cbcEncAux, if_neg hpt]
    congr 1
    exact cbcEncAux_congr E n (pt.drop 16).length _ _
      (by simp only [List.length_drop]; omega) le_rfl

theorem cbcDecAux_congr (D : List Nat → List Nat) :
    ∀ f1 f2 iv ct, ct.length ≤ f1 → ct.length ≤ f2 →
      cbcDecAux D f1 iv ct = cbcDecAux D f2 iv ct := by
  intro f1
  induction f1 with
  | zero =>
    intro f2 iv ct h1 _
    have : ct = [] := List.length_eq_zero.mp (by omega)
    subst this
    cases f2 <;> simp [cbcDecAux]
  | succ f ih =>
    intro f2 iv ct h1 h2
    by_cases hct : ct = []
    · subst hct; cases f2 <;> simp [cbcDecAux]
    · have hlen : 1 ≤ ct.length := List.length_pos.mpr hct
      cases f2 with
      | zero => omega
      | succ f2' =>
        simp only [cbcDecAux, if_neg hct]
        congr 1
        exact ih f2' _ _ (by simp only [List.length_drop]; omega)
          (by simp only [List.length_drop]; omega)

theorem cbcDec_eq (D : List Nat → List Nat) (iv ct : List Nat) :
    cbcDec D iv ct =
      if ct = [] then []
      else xorBytes iv (D (ct.take 16)) ++ cbcDec D (ct.take 16) (ct.drop 16) := by
  unfold cbcDec
  by_cases hct : ct = []
  · subst hct; simp [cbcDecAux]
  · have hlen : 1 ≤ ct.length := List.length_pos.mpr hct
    obtain ⟨n, hn⟩ : ∃ n, ct.length = n + 1 := ⟨ct.length - 1, by omega⟩
    rw [hn, if_neg hct]
    simp only [cbcDecAux, if_neg hct]
    congr 1
    exact cbcDecAux_congr D n (ct.drop 16).length _ _
      (by simp only [List.length_drop]; omega) le_rfl

theorem cbcEnc_nil (E : List Nat → List Nat) (iv : List Nat) :
    cbcEnc E iv [] = [] := rfl

theorem cbcDec_nil (D : List Nat → List Nat) (iv : List Nat) :
    cbcDec D iv [] = [] := rfl

theorem cbcEnc_length_aux (bc : BlockCipher) (n : Nat) :
    ∀ pt iv : List Nat, pt.length ≤ n → iv.length = 16 → 16 ∣ pt.length →
      (cbcEnc bc.enc iv pt).length = pt.length := by
  induction n with
  | zero =>
    intro pt iv hn _ _
    have : pt = [] := List.length_eq_zero.mp (by omega)
    subst this
    simp [cbcEnc_nil]
  | succ n ih =>
    intro pt iv hn hiv hdvd
    by_cases hpt : pt = []
    · subst hpt; simp [cbcEnc_nil]
    · rw [cbcEnc_eq, if_neg hpt]
      have hlen : 16 ≤ pt.length := by
        rcases hdvd with ⟨k, hk⟩
        have : k ≠ 0 := by
          intro h0
          exact hpt (List.length_eq_zero.mp (by omega))
        omega
      have htk : (pt.take 16).length = 16 := by
        simp [List.length_take]; omega
      have hx : (xorBytes iv (pt.take 16)).length = 16 := by
        rw [xorBytes_length, hiv, htk]; simp
      have hc : (bc.enc (xorBytes iv (pt.take 16))).length = 16 := bc.enc_length _ hx
      rw [List.length_append, hc]
      have hdrop : (pt.drop 16).length = pt.length - 16 := by simp
      have := ih (pt.drop 16) (bc.enc (xorBytes iv (pt.take 16)))
        (by omega) hc (by rw [hdrop]; exact (Nat.dvd_sub' hdvd (by norm_num)))
      omega

theorem cbcEnc_length (bc : BlockCipher) (iv pt : List Nat)
    (hiv : iv.length = 16) (hpt : 16 ∣ pt.length) :
    (cbcEnc bc.enc iv pt).length = pt.length :=
  cbcEnc_length_aux bc pt.length pt iv le_rfl hiv hpt

theorem cbcEnc_lt_aux (bc : BlockCipher) (n : Nat) :
    ∀ pt iv : List Nat, pt.length ≤ n → iv.length = 16 → (∀ x ∈ iv, x < 256) →
      16 ∣ pt.length → (∀ x ∈ pt, x < 256) →
      ∀ x ∈ cbcEnc bc.enc iv pt, x < 256 := by
  induction n with
  | zero =>
    intro pt iv hn _ _ _ _
    have : pt = [] := List.length_eq_zero.mp (by omega)
    subst this
    simp [cbcEnc_nil]
  | succ n ih =>
    intro pt iv hn hiv hivlt hdvd hptlt
    by_cases hpt : pt = []
    · subst hpt; simp [cbcEnc_nil]
    · rw [cbcEnc_eq, if_neg hpt]
      have hlen : 16 ≤ pt.length := by
        rcases hdvd with ⟨k, hk⟩
        have : k ≠ 0 := by
          intro h0
          exact hpt (List.length_eq_zero.mp (by omega))
        omega
      have htk : (pt.take 16).length = 16 := by
        simp [List.length_take]; omega
      have hx : (xorBytes iv (pt.take 16)).length = 16 := by
        rw [xorBytes_length, hiv, htk]; simp
      have hxlt : ∀ x ∈ xorBytes iv (pt.take 16), x < 256 :=
        xorBytes_lt _ _ hivlt (fun x hx => hptlt x (List.mem_of_mem_take hx))
      have hc : (bc.enc (xorBytes iv (pt.take 16))).length = 16 := bc.enc_length _ hx
      have hclt : ∀ x ∈ bc.enc (xorBytes iv (pt.take 16)), x < 256 :=
        bc.enc_lt _ hx hxlt
      intro x hxmem
      rcases List.mem_append.mp hxmem with hm | hm
      · exact hclt x hm
      · have hdrop : (pt.drop 16).length = pt.length - 16 := by simp
        exact ih (pt.drop 16) _ (by omega) hc hclt
          (by rw [hdrop]; exact Nat.dvd_sub' hdvd (by norm_num))
          (fun y hy => hptlt y (List.mem_of_mem_drop hy)) x hm

theorem cbcDec_cbcEnc_aux (bc : BlockCipher) (n : Nat) :
    ∀ pt iv : List Nat, pt.length ≤ n → iv.length = 16 → (∀ x ∈ iv, x < 256) →
      16 ∣ pt.length → (∀ x ∈ pt, x < 256) →
      cbcDec bc.dec iv (cbcEnc bc.enc iv pt) = pt := by
  induction n with
  | zero =>
    intro pt iv hn _ _ _ _
    have : pt = [] := List.length_eq_zero.mp (by omega)
    subst this
    simp [cbcEnc_nil, cbcDec_nil]
  | succ n ih =>
    intro pt iv hn hiv hivlt hdvd hptlt
    by_cases hpt : pt = []
    · subst hpt; simp [cbcEnc_nil, cbcDec_nil]
    · have hlen : 16 ≤ pt.length := by
        rcases hdvd with ⟨k, hk⟩
        have : k ≠ 0 := by
          intro h0
          exact hpt (List.length_eq_zero.mp (by omega))
        omega
      have htk : (pt.take 16).length = 16 := by
        simp [List.length_take]; omega
      have hx : (xorBytes iv (pt.take 16)).length = 16 := by
        rw [xorBytes_length, hiv, htk]; simp
      have hxlt : ∀ x ∈ xorBytes iv (pt.take 16), x < 256 :=
        xorBytes_lt _ _ hivlt (fun x hx => hptlt x (List.mem_of_mem_take hx))
      have hc : (bc.enc (xorBytes iv (pt.take 16))).length = 16 := bc.enc_length _ hx
      have hclt : ∀ x ∈ bc.enc (xorBytes iv (pt.take 16)), x < 256 :=
        bc.enc_lt _ hx hxlt
      rw [cbcEnc_eq, if_neg hpt, cbcDec_eq]
      have hne : bc.enc (xorBytes iv (pt.take 16)) ++
          cbcEnc bc.enc (bc.enc (xorBytes iv (pt.take 16))) (pt.drop 16) ≠ [] := by
        intro hcon
        have := congrArg List.length hcon
        simp only [List.length_append, List.length_nil, hc] at this
        omega
      rw [if_neg hne]
      have htake : (bc.enc (xorBytes iv (pt.take 16)) ++
          cbcEnc bc.enc (bc.enc (xorBytes iv (pt.take 16))) (pt.drop 16)).take 16 =
          bc.enc (xorBytes iv (pt.take 16)) := List.take_left' hc
      have hdrop16 : (bc.enc (xorBytes iv (pt.take 16)) ++
          cbcEnc bc.enc (bc.enc (xorBytes iv (pt.take 16))) (pt.drop 16)).drop 16 =
          cbcEnc bc.enc (bc.enc (xorBytes iv (pt.take 16))) (pt.drop 16) :=
        List.drop_left' hc
      rw [htake, hdrop16, bc.dec_enc _ hx hxlt, xorBytes_xorBytes _ _ (by omega)]
      have hdroplen : (pt.drop 16).length = pt.length - 16 := by simp
      rw [ih (pt.drop 16) _ (by omega) hc hclt
        (by rw [hdroplen]; exact Nat.dvd_sub' hdvd (by norm_num))
        (fun y hy => hptlt y (List.mem_of_mem_drop hy))]
      exact List.take_append_drop 16 pt

theorem cbcDec_cbcEnc (bc : BlockCipher) (iv pt : List Nat)
    (hiv : iv.length = 16) (hivlt : ∀ x ∈ iv, x < 256)
    (hdvd : 16 ∣ pt.length) (hptlt : ∀ x ∈ pt, x < 256) :
    cbcDec bc.dec iv (cbcEnc bc.enc iv pt) = pt :=
  cbcDec_cbcEnc_aux bc pt.length pt iv le_rfl hiv hivlt hdvd hptlt

/-- Padding step of `encrypt_aes_payload` (source lines 39-40):
`pad_len = AES.block_size - (len(compressed_bytes) % AES.block_size)` and
`padded_bytes = compressed_bytes + bytes([pad_len]) * pad_len`. -/
def pkcs7pad (b : List Nat) : List Nat :=
  b ++ List.replicate (16 - b.length % 16) (16 - b.length % 16)

/-- Base64 re-padding step of `decrypt_and_decompress_payload` (source
lines 60-62): append `=` characters when the length is not a multiple
of four. -/
def repadB64 (s : List Char) : List Char :=
  if s.length % 4 = 0 then s else s ++ List.replicate (4 - s.length % 4) '='

/-- Fallible part of `encrypt_aes_payload` (source lines 34-45), with the
pycryptodome failure conditions of `AES.new` made explicit: the key must
be 16, 24 or 32 bytes and the IV 16 bytes.  `ser` models
`json.dumps(..).encode("utf-8")` and `deflate` the raw-DEFLATE
compression; neither can fail on a record of strings. -/
def encryptStages (C : List Nat → BlockCipher) (ser : Record → List Nat)
    (deflate : List Nat → List Nat) (data : Record) (key iv : String) :
    Except String (List Char) :=
  let compressed := deflate (ser data)
  let padded := pkcs7pad compressed
  let kb := strBytes key
  let ib := strBytes iv
  if kb.length = 16 ∨ kb.length = 24 ∨ kb.length = 32 then
    if ib.length = 16 then
      Except.ok (b64encode (cbcEnc (C kb).enc ib padded))
    else Except.error "Incorrect IV length (it must be 16 bytes long)"
  else Except.error "Incorrect AES key length"

/-- Model of `encrypt_aes_payload` (source lines 34-47): the try/except
wrapper turns any stage failure into the string
`"AES Encryption Error: {e}"`. -/
def encrypt_aes_payload (C : List Nat → BlockCipher) (ser : Record → List Nat)
    (deflate : List Nat → List Nat) (data : Record) (key iv : String) :
    List Char :=
  match encryptStages C ser deflate data key iv with
  | Except.ok s => s
  | Except.error e => String.data ("AES Encryption Error: " ++ e)

/-- Fallible part of `decrypt_and_decompress_payload` (source lines
58-73): base64 re-padding, base64 decode, AES-CBC decrypt (with the
`AES.new` argument checks and the CBC block-alignment check made
explicit), the padding check and strip, raw inflate, JSON parse.
`inflate` models `zlib.decompress(.., wbits=-15)` and `parse` models
`json.loads` restricted to objects of strings; both signal failure with
`none`. -/
def decryptStages (C : List Nat → BlockCipher) (parse : List Nat → Option Record)
    (inflate : List Nat → Option (List Nat)) (encText : List Char)
    (key iv : String) : Except String Record :=
  match b64decodeChars (repadB64 encText) with
  | none => Except.error "Invalid base64-encoded string"
  | some ct =>
    let kb := strBytes key
    let ib := strBytes iv
    if kb.length = 16 ∨ kb.length = 24 ∨ kb.length = 32 then
      if ib.length = 16 then
        if ct.length % 16 = 0 then
          let pp := cbcDec (C kb).dec ib ct
          match pp.getLast? with
          | none => Except.error "index out of range"
          | some pad_len =>
            if 16 < pad_len ∨ pad_len = 0 then
              Except.error "Invalid padding value."
            else
              match inflate (pp.take (pp.length - pad_len)) with
              | none => Except.error "Error -3 while decompressing data"
              | some pt =>
                match parse pt with
                | none => Except.error "Expecting value: line 1 column 1 (char 0)"
                | some r => Except.ok r
        else Except.error "Data must be padded to 16 byte boundary in CBC mode"
      else Except.error "Incorrect IV length (it must be 16 bytes long)"
    else Except.error "Incorrect AES key length"

/-- Model of `decrypt_and_decompress_payload` (source lines 58-75): the
try/except wrapper turns any stage failure into the sentinel record
`{"error": "Decryption Failed: {e}"}`. -/
def decrypt_and_decompress_payload (C : List Nat → BlockCipher)
    (parse : List Nat → Option Record) (inflate : List Nat → Option (List Nat))
    (encText : List Char) (key iv : String) : Record :=
  match decryptStages C parse inflate encText key iv with
  | Except.ok r => r
  | Except.error e => [("error", "Decryption Failed: " ++ e)]

/-- Contiguous-substring test: models the Python expression `pat in s`
on strings. -/
def strContains (pat : List Char) : List Char → Bool
  | [] => pat.isEmpty
  | c :: rest => pat.isPrefixOf (c :: rest) || strContains pat rest

theorem strContains_iff (pat l : List Char) :
    strContains pat l = true ↔ pat <:+: l := by
  induction l with
  | nil =>
    simp only [strContains, List.isEmpty_iff]
    constructor
    · intro h; rw [h]
    · intro h
      exact List.eq_nil_of_infix_nil h
  | cons c rest ih =>
    simp only [strContains, Bool.or_eq_true, List.isPrefixOf_iff_prefix, ih]
    exact (List.infix_cons_iff).symm

/-- Abort check of `perform_request` (source lines 92-93): the attempt is
aborted as an encryption failure exactly when the text `Error` occurs in
one of the three envelope strings. -/
def encryptionFailureCheck (encData encKeyRsa encIvRsa : List Char) : Bool :=
  strContains (String.data "Error") encData ||
    strContains (String.data "Error") encKeyRsa ||
    strContains (String.data "Error") encIvRsa

/-- Hit classification of `perform_request` (source lines 101-106): look
up the `data` field, decode it when truthy, and report a hit exactly when
the decoded record has a truthy `token` field.  The response body is
modelled as a record of string fields; a decoded JSON value that is not
an object is folded into `parse = none` (the driver's `isinstance` guard
classifies it as a non-hit either way). -/
def perform_request_is_hit (C : List Nat → BlockCipher)
    (parse : List Nat → Option Record) (inflate : List Nat → Option (List Nat))
    (response : Record) (key iv : String) : Bool :=
  match response.lookup "data" with
  | none => false
  | some d =>
    if d = "" then false
    else
      match (decrypt_and_decompress_payload C parse inflate d.data key iv).lookup
        "token" with
      | none => false
      | some t => !(t = "")

theorem pkcs7pad_padLen_pos (b : List Nat) : 1 ≤ 16 - b.length % 16 := by omega

theorem pkcs7pad_padLen_le (b : List Nat) : 16 - b.length % 16 ≤ 16 := by omega

theorem pkcs7pad_length_dvd (b : List Nat) : 16 ∣ (pkcs7pad b).length := by
  simp only [pkcs7pad, List.length_append, List.length_replicate]
  omega

theorem pkcs7pad_lt (b : List Nat) (h : ∀ x ∈ b, x < 256) :
    ∀ x ∈ pkcs7pad b, x < 256 := by
  intro x hx
  simp only [pkcs7pad, List.mem_append] at hx
  rcases hx with hx | hx
  · exact h x hx
  · have := List.eq_of_mem_replicate hx
    omega

theorem pkcs7pad_getLast? (b : List Nat) :
    (pkcs7pad b).getLast? = some (16 - b.length % 16) := by
  unfold pkcs7pad
  have hn : 16 - b.length % 16 = (16 - b.length % 16 - 1) + 1 := by omega
  rw [hn, List.replicate_succ']
  rw [← List.append_assoc, List.getLast?_concat]

theorem pkcs7pad_take (b : List Nat) :
    (pkcs7pad b).take ((pkcs7pad b).length - (16 - b.length % 16)) = b := by
  unfold pkcs7pad
  have hlen : (b ++ List.replicate (16 - b.length % 16) (16 - b.length % 16)).length -
      (16 - b.length % 16) = b.length := by
    simp only [List.length_append, List.length_replicate]
    omega
  rw [hlen]
  exact List.take_left' rfl

theorem decryptStages_encryptStages (C : List Nat → BlockCipher)
    (ser : Record → List Nat) (parse : List Nat → Option Record)
    (deflate : List Nat → List Nat) (inflate : List Nat → Option (List Nat))
    (R : Record) (key iv : String)
    (hk : (strBytes key).length = 16 ∨ (strBytes key).length = 24 ∨
      (strBytes key).length = 32)
    (hiv : (strBytes iv).length = 16)
    (hlt : ∀ b ∈ deflate (ser R), b < 256)
    (hinf : inflate (deflate (ser R)) = some (ser R))
    (hparse : parse (ser R) = some R) :
    decryptStages C parse inflate (encrypt_aes_payload C ser deflate R key iv)
      key iv = Except.ok R := by
  have hivlt : ∀ x ∈ strBytes iv, x < 256 := strBytes_lt iv
  have hpadlt : ∀ x ∈ pkcs7pad (deflate (ser R)), x < 256 := pkcs7pad_lt _ hlt
  have hpaddvd : 16 ∣ (pkcs7pad (deflate (ser R))).length :=
    pkcs7pad_length_dvd _
  have hctlt : ∀ x ∈ cbcEnc (C (strBytes key)).enc (strBytes iv)
      (pkcs7pad (deflate (ser R))), x < 256 :=
    cbcEnc_lt_aux (C (strBytes key)) (pkcs7pad (deflate (ser R))).length _ _
      le_rfl hiv hivlt hpaddvd hpadlt
  have hctlen : (cbcEnc (C (strBytes key)).enc (strBytes iv)
      (pkcs7pad (deflate (ser R)))).length = (pkcs7pad (deflate (ser R))).length :=
    cbcEnc_length _ _ _ hiv hpaddvd
  have henc : encrypt_aes_payload C ser deflate R key iv =
      b64encode (cbcEnc (C (strBytes key)).enc (strBytes iv)
        (pkcs7pad (deflate (ser R)))) := by
    unfold encrypt_aes_payload encryptStages
    rw [if_pos hk, if_pos hiv]
  rw [henc]
  unfold decryptStages
  have hrepad : repadB64 (b64encode (cbcEnc (C (strBytes key)).enc (strBytes iv)
      (pkcs7pad (deflate (ser R))))) = b64encode (cbcEnc (C (strBytes key)).enc
      (strBytes iv) (pkcs7pad (deflate (ser R)))) := by
    unfold repadB64
    rw [if_pos (b64encode_length_mod _)]
  rw [hrepad, b64decode_b64encode _ hctlt]
  simp only []
  rw [if_pos hk, if_pos hiv]
  rw [if_pos (by rw [hctlen]; rcases hpaddvd with ⟨k, hk⟩; omega)]
  rw [cbcDec_cbcEnc (C (strBytes key)) (strBytes iv) _ hiv hivlt hpaddvd hpadlt]
  rw [pkcs7pad_getLast?]
  simp only []
  rw [if_neg (by
    have h1 := pkcs7pad_padLen_pos (deflate (ser R))
    have h2 := pkcs7pad_padLen_le (deflate (ser R))
    omega)]
  rw [pkcs7pad_take, hinf]
  simp only []
  rw [hparse]

/-- Identity block permutation: the simplest inhabitant of the block
cipher interface, used to instantiate witnesses. -/
def idCipher : BlockCipher where
  enc := fun b => b
  dec := fun b => b
  enc_length := fun _ h => h
  enc_lt := fun _ _ h => h
  dec_enc := fun _ _ _ => rfl

/-- Constant key-to-cipher family built on `idCipher`. -/
def idFam : List Nat → BlockCipher := fun _ => idCipher

/-- Complement block permutation (XOR each byte with 255). -/
def xorFFCipher : BlockCipher where
  enc := List.map (fun x => x ^^^ 255)
  dec := List.map (fun x => x ^^^ 255)
  enc_length := by intro b h; simp [h]
  enc_lt := by
    intro b _ hlt x hx
    simp only [List.mem_map] at hx
    obtain ⟨y, hy, rfl⟩ := hx
    have h256 : (256 : Nat) = 2 ^ 8 := by norm_num
    rw [h256]
    exact Nat.xor_lt_two_pow (h256 ▸ hlt y hy) (by norm_num)
  dec_enc := by
    intro b _ _
    rw [List.map_map]
    have hxx : ∀ x : Nat, (x ^^^ 255) ^^^ 255 = x := by
      intro x
      rw [Nat.xor_assoc, Nat.xor_self, Nat.xor_zero]
    calc List.map ((fun x => x ^^^ 255) ∘ fun x => x ^^^ 255) b
        = List.map id b := List.map_congr_left (fun x _ => hxx x)
      _ = b := List.map_id b

/-- Family that dispatches on the key length, used to separate the
behaviour of the encoder on the full key from its behaviour on a
truncated key. -/
def mixFam : List Nat → BlockCipher :=
  fun kb => if kb.length = 32 then idCipher else xorFFCipher

/-- The fixed symmetric key string of `perform_request` (source line 80). -/
def exampleKey : String := "cfc0d8be37e5ca838da40740d6723a0f"

/-- The fixed IV string of `perform_request` (source line 80). -/
def exampleIv : String := "7b242d789da2c4c7"

/-- The plaintext record of `perform_request` (source lines 82-87) at the
spec's example credentials. -/
def exampleRecord : Record :=
  [("versionCode", "211"), ("from", "1201"),
   ("fp", "f271d21900168bbf9125654e33b3b6db"), ("referer", ""),
   ("uuid", "f6d98180-876d-11f0-bd09-fdf3fcb93db6"), ("cur", "USD"),
   ("username", "a@b.com"), ("password", "x"), ("captcha", "")]

/-- Witness serializer: a fixed three-byte image. -/
def witSer : Record → List Nat := fun _ => [1, 2, 3]

/-- Witness parser inverting `witSer` at a chosen record. -/
def constParse (R0 : Record) : List Nat → Option Record :=
  fun b => if b = [1, 2, 3] then some R0 else none

/-- Parser that always succeeds with a chosen record. -/
def constRecParse (R0 : Record) : List Nat → Option Record := fun _ => some R0

/-- Witness compressor: the identity. -/
def witDeflate : List Nat → List Nat := fun b => b

/-- Witness decompressor: the identity. -/
def witInflate : List Nat → Option (List Nat) := fun b => some b

/-- Sixteen-character key and IV usable with AES-128. -/
def demoKey : String := "0123456789abcdef"

/-- Sixteen-character all-zero IV string. -/
def demoIv : String := "0000000000000000"

/-- Fifteen-byte compressed image whose padded, `demoIv`-masked single
CBC block base64-encodes to a string starting with the text `Error`. -/
def demoDeflate : List Nat → List Nat :=
  fun _ => [34, 138, 216, 156, 48, 48, 48, 48, 48, 48, 48, 48, 48, 48, 48]

/-- Sixteen-byte compressed image, exercising the block-aligned padding
branch. -/
def demoDeflate16 : List Nat → List Nat := fun _ => List.replicate 16 97

/-- C1: for every record R and fixed-length key and IV strings (an AES key
of 16, 24 or 32 bytes and a 16-byte IV), decoding the encoder's output
with the same key and IV recovers R exactly, given the library round-trip
facts the program relies on: the block primitive inverts itself, raw
inflate inverts raw deflate on the serialized record, and the JSON parser
inverts the serializer on R. -/
theorem claim_C1 (C : List Nat → BlockCipher) (ser : Record → List Nat)
    (parse : List Nat → Option Record) (deflate : List Nat → List Nat)
    (inflate : List Nat → Option (List Nat)) (R : Record) (key iv : String)
    (hk : (strBytes key).length = 16 ∨ (strBytes key).length = 24 ∨
      (strBytes key).length = 32)
    (hiv : (strBytes iv).length = 16)
    (hlt : ∀ b ∈ deflate (ser R), b < 256)
    (hinf : inflate (deflate (ser R)) = some (ser R))
    (hparse : parse (ser R) = some R) :
    decrypt_and_decompress_payload C parse inflate
      (encrypt_aes_payload C ser deflate R key iv) key iv = R := by
  unfold decrypt_and_decompress_payload
  rw [decryptStages_encryptStages C ser parse deflate inflate R key iv hk hiv hlt
    hinf hparse]

theorem claim_C1_witness :
    decrypt_and_decompress_payload idFam (constParse exampleRecord) witInflate
      (encrypt_aes_payload idFam witSer witDeflate exampleRecord exampleKey
        exampleIv) exampleKey exampleIv = exampleRecord :=
  claim_C1 idFam witSer (constParse exampleRecord) witDeflate witInflate
    exampleRecord exampleKey exampleIv (by decide) (by decide) (by decide)
    (by decide) (by decide)

/-- C3: for every record, the encoder appends `n = 16 - len % 16` bytes of
value `n` to the compressed bytes (PKCS#7 byte-value padding into the AES
block size), with `1 ≤ n ≤ 16`; when the compressed length is already a
multiple of 16 a full block of sixteen `16`-bytes is appended. -/
theorem claim_C3 (C : List Nat → BlockCipher) (ser : Record → List Nat)
    (deflate : List Nat → List Nat) (R : Record) (key iv : String)
    (hk : (strBytes key).length = 16 ∨ (strBytes key).length = 24 ∨
      (strBytes key).length = 32)
    (hiv : (strBytes iv).length = 16) :
    encrypt_aes_payload C ser deflate R key iv =
      b64encode (cbcEnc (C (strBytes key)).enc (strBytes iv)
        (deflate (ser R) ++
          List.replicate (16 - (deflate (ser R)).length % 16)
            (16 - (deflate (ser R)).length % 16))) ∧
    1 ≤ 16 - (deflate (ser R)).length % 16 ∧
    16 - (deflate (ser R)).length % 16 ≤ 16 ∧
    ((deflate (ser R)).length % 16 = 0 → 16 - (deflate (ser R)).length % 16 = 16) := by
  refine ⟨?_, by omega, by omega, by omega⟩
  unfold encrypt_aes_payload encryptStages pkcs7pad
  rw [if_pos hk, if_pos hiv]

theorem claim_C3_witness :
    encrypt_aes_payload idFam witSer demoDeflate16 [] demoKey demoIv =
      b64encode (cbcEnc idCipher.enc (strBytes demoIv)
        (List.replicate 16 97 ++ List.replicate 16 16)) :=
  ((claim_C3 idFam witSer demoDeflate16 [] demoKey demoIv (by decide)
    (by decide)).1).trans (by decide)

/-- C5: for every input the decode path is total, and it either returns
the record produced by a fully successful pipeline or the sentinel record
with the single field `error` carrying the failure description; no other
outcome exists. -/
theorem claim_C5 (C : List Nat → BlockCipher) (parse : List Nat → Option Record)
    (inflate : List Nat → Option (List Nat)) (encText : List Char)
    (key iv : String) :
    (∃ r, decryptStages C parse inflate encText key iv = Except.ok r ∧
      decrypt_and_decompress_payload C parse inflate encText key iv = r) ∨
    (∃ e, decryptStages C parse inflate encText key iv = Except.error e ∧
      decrypt_and_decompress_payload C parse inflate encText key iv =
        [("error", "Decryption Failed: " ++ e)]) := by
  cases h : decryptStages C parse inflate encText key iv with
  | ok r =>
    left
    exact ⟨r, rfl, by unfold decrypt_and_decompress_payload; rw [h]⟩
  | error e =>
    right
    exact ⟨e, rfl, by unfold decrypt_and_decompress_payload; rw [h]⟩

/-- C2: whenever the AES-CBC-decrypted data ends in a byte that is zero or
exceeds the block size 16, the decoder fails with the invalid-padding
sentinel record instead of returning a decoded record. -/
theorem claim_C2 (C : List Nat → BlockCipher) (parse : List Nat → Option Record)
    (inflate : List Nat → Option (List Nat)) (encText : List Char)
    (key iv : String) (ct : List Nat) (n : Nat)
    (hb64 : b64decodeChars (repadB64 encText) = some ct)
    (hk : (strBytes key).length = 16 ∨ (strBytes key).length = 24 ∨
      (strBytes key).length = 32)
    (hiv : (strBytes iv).length = 16)
    (hct : ct.length % 16 = 0)
    (hlast : (cbcDec (C (strBytes key)).dec (strBytes iv) ct).getLast? = some n)
    (hbad : n = 0 ∨ 16 < n) :
    decrypt_and_decompress_payload C parse inflate encText key iv =
      [("error", "Decryption Failed: Invalid padding value.")] := by
  have hstages : decryptStages C parse inflate encText key iv =
      Except.error "Invalid padding value." := by
    unfold decryptStages
    rw [hb64]
    simp only []
    rw [if_pos hk, if_pos hiv, if_pos hct, hlast]
    simp only []
    rw [if_pos (by omega)]
  unfold decrypt_and_decompress_payload
  rw [hstages]
  rfl

theorem claim_C2_witness :
    decrypt_and_decompress_payload idFam (constParse []) witInflate
      (b64encode (strBytes demoIv)) demoKey demoIv =
      [("error", "Decryption Failed: Invalid padding value.")] :=
  claim_C2 idFam (constParse []) witInflate (b64encode (strBytes demoIv))
    demoKey demoIv (strBytes demoIv) 0 (by decide) (by decide) (by decide)
    (by decide) (by decide) (by decide)

/-- C9: when the last decrypted byte `n` lies between 1 and 16 the decoder
strips exactly `n` trailing bytes and hands the rest to inflate, without
inspecting the other pad bytes: the result is the continuation of the
pipeline on the first `length - n` bytes, whatever the removed bytes
were. -/
theorem claim_C9 (C : List Nat → BlockCipher) (parse : List Nat → Option Record)
    (inflate : List Nat → Option (List Nat)) (encText : List Char)
    (key iv : String) (ct : List Nat) (n : Nat)
    (hb64 : b64decodeChars (repadB64 encText) = some ct)
    (hk : (strBytes key).length = 16 ∨ (strBytes key).length = 24 ∨
      (strBytes key).length = 32)
    (hiv : (strBytes iv).length = 16)
    (hct : ct.length % 16 = 0)
    (hlast : (cbcDec (C (strBytes key)).dec (strBytes iv) ct).getLast? = some n)
    (hn1 : 1 ≤ n) (hn16 : n ≤ 16) :
    ((cbcDec (C (strBytes key)).dec (strBytes iv) ct).take
        ((cbcDec (C (strBytes key)).dec (strBytes iv) ct).length - n)).length =
      (cbcDec (C (strBytes key)).dec (strBytes iv) ct).length - n ∧
    decrypt_and_decompress_payload C parse inflate encText key iv =
      (match inflate ((cbcDec (C (strBytes key)).dec (strBytes iv) ct).take
          ((cbcDec (C (strBytes key)).dec (strBytes iv) ct).length - n)) with
       | none => [("error", "Decryption Failed: Error -3 while decompressing data")]
       | some pt =>
         match parse pt with
         | none => [("error",
             "Decryption Failed: Expecting value: line 1 column 1 (char 0)")]
         | some r => r) := by
  constructor
  · rw [List.length_take]
    omega
  · unfold decrypt_and_decompress_payload decryptStages
    rw [hb64]
    simp only []
    rw [if_pos hk, if_pos hiv, if_pos hct, hlast]
    simp only []
    rw [if_neg (by omega)]
    cases hinf : inflate ((cbcDec (C (strBytes key)).dec (strBytes iv) ct).take
        ((cbcDec (C (strBytes key)).dec (strBytes iv) ct).length - n)) with
    | none => rfl
    | some pt =>
      simp only []
      cases hp : parse pt <;> rfl

theorem claim_C9_witness :
    decrypt_and_decompress_payload idFam (constRecParse [("ok", "1")]) witInflate
      (b64encode (xorBytes (strBytes demoIv) (List.replicate 14 7 ++ [9, 2])))
      demoKey demoIv = [("ok", "1")] :=
  ((claim_C9 idFam (constRecParse [("ok", "1")]) witInflate
    (b64encode (xorBytes (strBytes demoIv) (List.replicate 14 7 ++ [9, 2])))
    demoKey demoIv (xorBytes (strBytes demoIv) (List.replicate 14 7 ++ [9, 2])) 2
    (by decide) (by decide) (by decide) (by decide) (by decide) (by decide)
    (by decide)).2).trans (by decide)

theorem repadB64_stripTrailingEq (bs : List Nat) (h : ∀ b ∈ bs, b < 256) :
    repadB64 (stripTrailingEq (b64encode bs)) = b64encode bs := by
  obtain ⟨body, k, heq, hk, hne⟩ := b64encode_split bs h
  have htot : (body.length + k) % 4 = 0 := by
    have := b64encode_length_mod bs
    rw [heq] at this
    simpa using this
  rw [heq, stripTrailingEq_spec body k hne]
  unfold repadB64
  by_cases h0 : body.length % 4 = 0
  · rw [if_pos h0]
    have hk0 : k = 0 := by omega
    subst hk0
    simp
  · rw [if_neg h0]
    have hkeq : 4 - body.length % 4 = k := by omega
    rw [hkeq]

/-- C4: the decoder appends between one and three `=` characters when the
envelope's length is not a multiple of four, restoring a multiple of
four, and decoding an envelope stripped of its trailing `=` padding gives
the same result as decoding the fully padded envelope. -/
theorem claim_C4 :
    (∀ s : List Char, s.length % 4 ≠ 0 →
      repadB64 s = s ++ List.replicate (4 - s.length % 4) '=' ∧
      1 ≤ 4 - s.length % 4 ∧ 4 - s.length % 4 ≤ 3 ∧
      (repadB64 s).length % 4 = 0) ∧
    (∀ (C : List Nat → BlockCipher) (parse : List Nat → Option Record)
      (inflate : List Nat → Option (List Nat)) (key iv : String)
      (bs : List Nat), (∀ b ∈ bs, b < 256) →
      decrypt_and_decompress_payload C parse inflate
        (stripTrailingEq (b64encode bs)) key iv =
      decrypt_and_decompress_payload C parse inflate (b64encode bs) key iv) := by
  constructor
  · intro s hs
    refine ⟨by unfold repadB64; rw [if_neg hs], by omega, by omega, ?_⟩
    unfold repadB64
    rw [if_neg hs]
    simp only [List.length_append, List.length_replicate]
    omega
  · intro C parse inflate key iv bs hbs
    have hrepadStrip := repadB64_stripTrailingEq bs hbs
    have hrepadFull : repadB64 (b64encode bs) = b64encode bs := by
      unfold repadB64
      rw [if_pos (b64encode_length_mod bs)]
    unfold decrypt_and_decompress_payload decryptStages
    rw [hrepadStrip, hrepadFull]

theorem claim_C4_witness :
    repadB64 (String.data "QQ") = String.data "QQ==" ∧
    decrypt_and_decompress_payload idFam (constParse []) witInflate
      (stripTrailingEq (b64encode [77, 1])) demoKey demoIv =
    decrypt_and_decompress_payload idFam (constParse []) witInflate
      (b64encode [77, 1]) demoKey demoIv :=
  ⟨((claim_C4.1 (String.data "QQ") (by decide)).1).trans (by decide),
   claim_C4.2 idFam (constParse []) witInflate demoKey demoIv [77, 1] (by decide)⟩

theorem decrypt_empty_no_token (C : List Nat → BlockCipher)
    (parse : List Nat → Option Record) (inflate : List Nat → Option (List Nat))
    (key iv : String) :
    (decrypt_and_decompress_payload C parse inflate [] key iv).lookup "token" =
      none := by
  have hstages : ∃ e, decryptStages C parse inflate [] key iv =
      Except.error e := by
    unfold decryptStages
    have hrepad : repadB64 [] = [] := rfl
    rw [hrepad]
    simp only [b64decodeChars]
    by_cases hkk : (strBytes key).length = 16 ∨ (strBytes key).length = 24 ∨
        (strBytes key).length = 32
    · rw [if_pos hkk]
      by_cases hii : (strBytes iv).length = 16
      · rw [if_pos hii, if_pos (by simp), cbcDec_nil]
        exact ⟨_, rfl⟩
      · rw [if_neg hii]
        exact ⟨_, rfl⟩
    · rw [if_neg hkk]
      exact ⟨_, rfl⟩
  obtain ⟨e, he⟩ := hstages
  unfold decrypt_and_decompress_payload
  rw [he]
  rfl

/-- C6: the driver resolves an attempt as a hit exactly when the response
body has a `data` field whose decode carries a non-empty `token` field;
in every other case (no `data` field, empty `data` value, decode failure,
absent or empty token) it resolves as not-a-hit. -/
theorem claim_C6 (C : List Nat → BlockCipher) (parse : List Nat → Option Record)
    (inflate : List Nat → Option (List Nat)) (response : Record)
    (key iv : String) :
    perform_request_is_hit C parse inflate response key iv = true ↔
      ∃ d, response.lookup "data" = some d ∧
        ∃ t, (decrypt_and_decompress_payload C parse inflate d.data key
          iv).lookup "token" = some t ∧ t ≠ "" := by
  unfold perform_request_is_hit
  cases hl : response.lookup "data" with
  | none => simp
  | some d =>
    simp only [Option.some.injEq]
    by_cases hd : d = ""
    · subst hd
      rw [if_pos rfl]
      have hnt := decrypt_empty_no_token C parse inflate key iv
      constructor
      · intro h; cases h
      · rintro ⟨d', hd', t, ht, hne⟩
        subst hd'
        rw [show String.data "" = ([] : List Char) from rfl, hnt] at ht
        cases ht
    · rw [if_neg hd]
      cases htk : (decrypt_and_decompress_payload C parse inflate d.data key
          iv).lookup "token" with
      | none =>
        constructor
        · intro h; cases h
        · rintro ⟨d', hd', t, ht, hne⟩
          subst hd'
          rw [htk] at ht
          cases ht
      | some t =>
        constructor
        · intro h
          have hne : t ≠ "" := by simpa using h
          exact ⟨d, rfl, t, htk, hne⟩
        · rintro ⟨d', hd', t', ht', hne⟩
          subst hd'
          rw [htk] at ht'
          injection ht' with ht''
          subst ht''
          simpa using hne

theorem b64encode_chars (bs : List Nat) :
    ∀ c ∈ b64encode bs, c ∈ b64Chars ∨ c = '=' := by
  induction bs using b64encode.induct with
  | case1 => simp [b64encode]
  | case2 b0 =>
    intro c hc
    simp only [b64encode, List.mem_cons, List.not_mem_nil, or_false] at hc
    rcases hc with rfl | rfl | rfl | rfl
    · exact Or.inl (b64Table_mem _)
    · exact Or.inl (b64Table_mem _)
    · exact Or.inr rfl
    · exact Or.inr rfl
  | case3 b0 b1 =>
    intro c hc
    simp only [b64encode, List.mem_cons, List.not_mem_nil, or_false] at hc
    rcases hc with rfl | rfl | rfl | rfl
    · exact Or.inl (b64Table_mem _)
    · exact Or.inl (b64Table_mem _)
    · exact Or.inl (b64Table_mem _)
    · exact Or.inr rfl
  | case4 b0 b1 b2 rest ih =>
    intro c hc
    simp only [b64encode, List.mem_cons] at hc
    rcases hc with rfl | rfl | rfl | rfl | hc
    · exact Or.inl (b64Table_mem _)
    · exact Or.inl (b64Table_mem _)
    · exact Or.inl (b64Table_mem _)
    · exact Or.inl (b64Table_mem _)
    · exact ih c hc

theorem errorTag_in_errorString (e : String) :
    strContains (String.data "Error")
      (String.data ("AES Encryption Error: " ++ e)) = true := by
  rw [strContains_iff, String.data_append]
  have hbase : String.data "Error" <:+: String.data "AES Encryption Error: " := by
    decide
  rcases hbase with ⟨u, v, huv⟩
  exact ⟨u, v ++ e.data, by rw [← huv]; simp⟩

theorem errorString_ne_b64 (e : String) (bs : List Nat) :
    String.data ("AES Encryption Error: " ++ e) ≠ b64encode bs := by
  intro heq
  have hcolon : ':' ∈ b64encode bs := by
    rw [← heq, String.data_append]
    apply List.mem_append_left
    decide
  rcases b64encode_chars bs ':' hcolon with h | h
  · exact absurd h (by decide)
  · exact absurd h (by decide)

/-- C7 (amended): whenever a stage of the encode path fails, the encoder
returns the tagged string `AES Encryption Error: ...`, which differs from
every base64 envelope a successful encode can produce, and the driver's
check detects it and aborts the attempt.  The converse direction of the
original claim is false (see the counterexample): the driver's substring
test also fires on some successful envelopes. -/
theorem claim_C7_amended (C : List Nat → BlockCipher) (ser : Record → List Nat)
    (deflate : List Nat → List Nat) (R : Record) (key iv : String) (e : String)
    (hfail : encryptStages C ser deflate R key iv = Except.error e) :
    encrypt_aes_payload C ser deflate R key iv =
      String.data ("AES Encryption Error: " ++ e) ∧
    (∀ rsaKey rsaIv : List Char,
      encryptionFailureCheck (encrypt_aes_payload C ser deflate R key iv)
        rsaKey rsaIv = true) ∧
    (∀ bs : List Nat, encrypt_aes_payload C ser deflate R key iv ≠
      b64encode bs) := by
  have henc : encrypt_aes_payload C ser deflate R key iv =
      String.data ("AES Encryption Error: " ++ e) := by
    unfold encrypt_aes_payload
    rw [hfail]
  refine ⟨henc, ?_, ?_⟩
  · intro rsaKey rsaIv
    unfold encryptionFailureCheck
    rw [henc, errorTag_in_errorString]
    simp
  · intro bs
    rw [henc]
    exact errorString_ne_b64 e bs

theorem claim_C7_witness :
    encrypt_aes_payload idFam witSer witDeflate [] "k" demoIv =
      String.data "AES Encryption Error: Incorrect AES key length" ∧
    encryptionFailureCheck
      (encrypt_aes_payload idFam witSer witDeflate [] "k" demoIv)
      (String.data "AAAA") (String.data "AAAA") = true :=
  have happ := claim_C7_amended idFam witSer witDeflate [] "k" demoIv
    "Incorrect AES key length" (by unfold encryptStages; rw [if_neg (by decide)])
  ⟨happ.1.trans (by decide),
   happ.2.1 (String.data "AAAA") (String.data "AAAA")⟩

/-- C7 (counterexample): it is not true that no successful encoder output
is classified as an encryption failure: with the identity block cipher
and a fifteen-byte compressed image, the envelope base64-encodes to a
string starting with the text `Error` and the driver's check fires on a
successful encode. -/
theorem claim_C7_counterexample :
    ¬ (∀ (C : List Nat → BlockCipher) (ser : Record → List Nat)
        (deflate : List Nat → List Nat) (R : Record) (key iv : String)
        (s : List Char),
        encryptStages C ser deflate R key iv = Except.ok s →
        encryptionFailureCheck s (String.data "AAAA") (String.data "AAAA") =
          false) := by
  intro h
  have hok : encryptStages idFam witSer demoDeflate [] demoKey demoIv =
      Except.ok (b64encode (cbcEnc (idFam (strBytes demoKey)).enc
        (strBytes demoIv) (pkcs7pad (demoDeflate (witSer []))))) := by
    unfold encryptStages
    rw [if_pos (by decide), if_pos (by decide)]
  have hfired := h _ _ _ _ _ _ _ hok
  exact absurd hfired (by decide)

/-- C8 (counterexample): the encoder does not use the first 16 bytes of
the key string as the cipher key: a key-length-dispatching cipher family
separates the encoder's actual behaviour (full 32-byte key) from the
claimed behaviour (truncated 16-byte key) on the fixed example key. -/
theorem claim_C8_counterexample :
    ¬ (∀ (C : List Nat → BlockCipher) (ser : Record → List Nat)
        (deflate : List Nat → List Nat) (R : Record),
        encryptStages C ser deflate R exampleKey exampleIv =
          Except.ok (b64encode (cbcEnc (C ((strBytes exampleKey).take 16)).enc
            (strBytes exampleIv) (pkcs7pad (deflate (ser R)))))) := by
  intro h
  have hP := h mixFam witSer witDeflate []
  have hok : encryptStages mixFam witSer witDeflate [] exampleKey exampleIv =
      Except.ok (b64encode (cbcEnc (mixFam (strBytes exampleKey)).enc
        (strBytes exampleIv) (pkcs7pad (witDeflate (witSer []))))) := by
    unfold encryptStages
    rw [if_pos (by decide), if_pos (by decide)]
  rw [hok] at hP
  have hlist := Except.ok.inj hP
  exact absurd hlist (by decide)

/-- C8 (amended): on the example record, the encoder feeds the full
32-byte UTF-8 encoding of the key string to the AES constructor (an
AES-256 key, not the first 16 bytes as an AES-128 key), and decoding the
resulting base64 string with the same key and IV recovers the record
exactly, given the library round-trip hypotheses. -/
theorem claim_C8_amended (C : List Nat → BlockCipher) (ser : Record → List Nat)
    (parse : List Nat → Option Record) (deflate : List Nat → List Nat)
    (inflate : List Nat → Option (List Nat))
    (hlt : ∀ b ∈ deflate (ser exampleRecord), b < 256)
    (hinf : inflate (deflate (ser exampleRecord)) = some (ser exampleRecord))
    (hparse : parse (ser exampleRecord) = some exampleRecord) :
    (strBytes exampleKey).length = 32 ∧
    encryptStages C ser deflate exampleRecord exampleKey exampleIv =
      Except.ok (b64encode (cbcEnc (C (strBytes exampleKey)).enc
        (strBytes exampleIv) (pkcs7pad (deflate (ser exampleRecord))))) ∧
    decrypt_and_decompress_payload C parse inflate
      (encrypt_aes_payload C ser deflate exampleRecord exampleKey exampleIv)
      exampleKey exampleIv = exampleRecord := by
  refine ⟨by decide, ?_, ?_⟩
  · unfold encryptStages
    rw [if_pos (by decide), if_pos (by decide)]
  · unfold decrypt_and_decompress_payload
    rw [decryptStages_encryptStages C ser parse deflate inflate exampleRecord
      exampleKey exampleIv (by decide) (by decide) hlt hinf hparse]

theorem claim_C8_witness :
    (strBytes exampleKey).length = 32 ∧
    decrypt_and_decompress_payload idFam (constParse exampleRecord) witInflate
      (encrypt_aes_payload idFam witSer witDeflate exampleRecord exampleKey
        exampleIv) exampleKey exampleIv = exampleRecord :=
  have happ := claim_C8_amended idFam witSer (constParse exampleRecord)
    witDeflate witInflate (by decide) (by decide) (by decide)
  ⟨happ.1, happ.2.2⟩

/-- C10: the driver's encryption-failure check is exactly the test for
the substring `Error` in the AES envelope or either RSA string, and it
misfires: a successfully encoded envelope whose base64 text happens to
begin with `Error` is classified as an encryption failure. -/
theorem claim_C10 :
    (∀ encData encKeyRsa encIvRsa : List Char,
      encryptionFailureCheck encData encKeyRsa encIvRsa = true ↔
        (String.data "Error" <:+: encData ∨
          String.data "Error" <:+: encKeyRsa ∨
          String.data "Error" <:+: encIvRsa)) ∧
    (encryptStages idFam witSer demoDeflate [] demoKey demoIv =
      Except.ok (b64encode (cbcEnc (idFam (strBytes demoKey)).enc
        (strBytes demoIv) (pkcs7pad (demoDeflate (witSer []))))) ∧
    encryptionFailureCheck
      (b64encode (cbcEnc (idFam (strBytes demoKey)).enc (strBytes demoIv)
        (pkcs7pad (demoDeflate (witSer []))))) (String.data "AAAA")
      (String.data "AAAA") = true) := by
  refine ⟨?_, ?_, by decide⟩
  · intro encData encKeyRsa encIvRsa
    unfold encryptionFailureCheck
    simp [Bool.or_eq_true, strContains_iff, or_assoc]
  · unfold encryptStages
    rw [if_pos (by decide), if_pos (by decide)]
